import Mathlib

/-!
Verification of the uqbasejump multi-base calculator (src/uqbasejump.h and
src/uqbasejump.c) against its natural-language specification.

The C sources are shallowly embedded: strings become `List Char`, the C
`unsigned long long` arithmetic is `Nat` with an explicit `% 2^64` where the
source relies on unsigned wraparound, functions that can return `NULL` become
`Option`-valued, and the floating-point evaluator of uqbasejump.h is embedded
over exact rationals `ℚ` (the embedded operations `+ - * /`, `fmod` with
truncation toward zero, and `pow` on integral exponents agree exactly with the
IEEE double operations on every input exercised in the theorems below, where
all intermediate values are small integers exactly representable in a double).
-/

namespace UqBaseJump

/-- The u64 modulus: C `unsigned long long` arithmetic is modulo 2^64. -/
def U64MOD : ℕ := 2 ^ 64

/-- `char_to_digit` (uqbasejump.h:75): '0'-'9' → 0-9, 'a'-'z'/'A'-'Z' → 10-35,
otherwise -1. Returns `Int` to mirror the C `int` sentinel. -/
def char_to_digit (c : Char) : ℤ :=
  if '0' ≤ c ∧ c ≤ '9' then (c.toNat : ℤ) - 48
  else if 'a' ≤ c ∧ c ≤ 'z' then (c.toNat : ℤ) - 97 + 10
  else if 'A' ≤ c ∧ c ≤ 'Z' then (c.toNat : ℤ) - 65 + 10
  else -1

/-- `digit_to_char` (uqbasejump.h:93): 0-9 → '0'-'9', 10-35 → 'A'-'Z'
(uppercase), otherwise '?'. -/
def digit_to_char (d : ℕ) : Char :=
  if d ≤ 9 then Char.ofNat (48 + d)
  else if d ≤ 35 then Char.ofNat (65 + (d - 10))
  else '?'

/-- A character is accepted as a digit of base `B` by the parsing loops of
uqbasejump.h when `char_to_digit` is neither negative nor ≥ B
(uqbasejump.h:125-128, 164-167). -/
def validDigit (c : Char) (B : ℕ) : Bool :=
  0 ≤ char_to_digit c ∧ char_to_digit c < (B : ℤ)

/-- The accumulation loop shared by `convert_any_base_to_base_ten` and
`convert_str_to_int_any_base` (uqbasejump.h:124-131, 163-170):
`value = value * base + digit` in `unsigned long long` arithmetic, i.e.
modulo 2^64; `none` when a character is not a valid digit of the base. -/
def parseLoop (B : ℕ) : ℕ → List Char → Option ℕ
  | acc, [] => some acc
  | acc, c :: cs =>
      if validDigit c B then
        parseLoop B ((acc * B + (char_to_digit c).toNat) % U64MOD) cs
      else none

/-- The same accumulation without the 2^64 wraparound: the ideal magnitude of
a digit string.  Used to state what the wrapped loop computes. -/
def idealLoop (B : ℕ) : ℕ → List Char → ℕ
  | acc, [] => acc
  | acc, c :: cs => idealLoop B (acc * B + (char_to_digit c).toNat) cs

/-- Digit extraction of `convert_int_to_str_any_base` (uqbasejump.h:207-211),
most-significant digit first; empty for 0 (the `value == 0` case is handled
before the loop).  The `B ≤ 1` test only guards termination: every caller
has already checked `2 ≤ B`.  The first argument is recursion fuel (the
value strictly decreases at each step, so fuel = value always suffices — the
wrapper passes exactly that). -/
def formatCore (B : ℕ) : ℕ → ℕ → List Char
  | 0, _ => []
  | fuel + 1, v =>
    if v = 0 ∨ B ≤ 1 then []
    else formatCore B fuel (v / B) ++ [digit_to_char (v % B)]

/-- `convert_int_to_str_any_base` (uqbasejump.h:186): `none` (C `NULL`) for a
base outside 2-36; "0" for value 0; otherwise the minimal most-significant-
first digit string. -/
def convert_int_to_str_any_base (v B : ℕ) : Option (List Char) :=
  if ¬(2 ≤ B ∧ B ≤ 36) then none
  else if v = 0 then some ['0']
  else some (formatCore B v v)

/-- The scanning loop of `convert_str_to_int_any_base` (uqbasejump.h:163-170):
an invalid digit discards the accumulator and returns 0. -/
def convertStrGo (B : ℕ) : ℕ → List Char → ℕ
  | acc, [] => acc
  | acc, c :: cs =>
      if validDigit c B then
        convertStrGo B ((acc * B + (char_to_digit c).toNat) % U64MOD) cs
      else 0

/-- `convert_str_to_int_any_base` (uqbasejump.h:154): returns 0 for a base
outside 2-36 and 0 on the first invalid digit; otherwise the wrapped
accumulated value. -/
def convert_str_to_int_any_base (s : List Char) (B : ℕ) : ℕ :=
  if ¬(2 ≤ B ∧ B ≤ 36) then 0
  else convertStrGo B 0 s

/-- `convert_any_base_to_base_ten` (uqbasejump.h:115): `none` for a bad base or
an invalid digit, otherwise the decimal string of the wrapped value (the C
`sprintf(result, "%llu", value)`, which prints the minimal decimal digits —
the same string `convert_int_to_str_any_base value 10` produces). -/
def convert_any_base_to_base_ten (s : List Char) (B : ℕ) : Option (List Char) :=
  if ¬(2 ≤ B ∧ B ≤ 36) then none
  else (parseLoop B 0 s).bind fun v => convert_int_to_str_any_base v 10

/-- `is_operator` (uqbasejump.h:222): the six binary operators plus both
parentheses. -/
def is_operator (c : Char) : Bool :=
  c = '+' ∨ c = '-' ∨ c = '*' ∨ c = '/' ∨ c = '%' ∨ c = '(' ∨ c = ')' ∨
    c = '^'

/-- C `isspace` in the default locale (used at uqbasejump.h:320): space and
the five control whitespace characters. -/
def csIsSpace (c : Char) : Bool :=
  c = ' ' ∨ c = '\t' ∨ c = '\n' ∨ c = '\x0b' ∨ c = '\x0c' ∨ c = '\r'

/-- `strtoull(s, NULL, 10)` as used at uqbasejump.h:294: parses the leading
run of decimal digits.  Its only inputs in this program are the decimal
strings printed from a `u64`, so the ULLONG_MAX clamp on overflow is never
exercised and is not modelled. -/
def strtoullDec (s : List Char) : ℕ :=
  idealLoop 10 0 (s.takeWhile fun c => validDigit c 10)

/-- The scanning loop of `convert_expression` (uqbasejump.h:258-339): a valid
digit of the input base starts a maximal digit run which is parsed
(`convert_any_base_to_base_ten`), read back (`strtoull`) and re-formatted in
the output base (`convert_int_to_str_any_base`); operators and whitespace are
copied verbatim; any other character aborts with `none` (C `NULL`). -/
def convertExprGo (inB outB : ℕ) : ℕ → List Char → Option (List Char)
  | 0, _ => none
  | _ + 1, [] => some []
  | fuel + 1, c :: rest =>
    if validDigit c inB then
      match convert_any_base_to_base_ten
          ((c :: rest).takeWhile fun x => validDigit x inB) inB with
      | none => none
      | some decStr =>
        match convert_int_to_str_any_base (strtoullDec decStr) outB with
        | none => none
        | some conv =>
          (convertExprGo inB outB fuel
            ((c :: rest).dropWhile fun x => validDigit x inB)).map (conv ++ ·)
    else if is_operator c || csIsSpace c then
      (convertExprGo inB outB fuel rest).map (c :: ·)
    else none

/-- `convert_expression` (uqbasejump.h:240): guards both bases, then scans.
The scan consumes at least one character per step, so fuel `length + 1`
never runs out (fuel is always more than the remaining length — the fuel-0
branch is unreachable from here, and `convertExprGo_fuel` below proves fuel
irrelevance). -/
def convert_expression (s : List Char) (inB outB : ℕ) : Option (List Char) :=
  if ¬(2 ≤ inB ∧ inB ≤ 36 ∧ 2 ≤ outB ∧ outB ≤ 36) then none
  else convertExprGo inB outB (s.length + 1) s

/-- `skip_whitespace` (uqbasejump.h:366): advance past whitespace. -/
def skip_whitespace (s : List Char) : List Char := s.dropWhile csIsSpace

/-- Exact rational arithmetic on unreduced fractions, standing for the C
`double` intermediate values of the evaluator (which are exact on every input
exercised by the theorems below, where all intermediate values are small
integers).  `d = 0` never arises from the parser (proved below); operations
assume and preserve `0 < d`. -/
structure Frac where
  n : ℤ
  d : ℕ
deriving DecidableEq

/-- The rational value a `Frac` represents. -/
def Frac.toRat (x : Frac) : ℚ := (x.n : ℚ) / (x.d : ℚ)

/-- Embed an integer. -/
def Frac.ofInt (z : ℤ) : Frac := ⟨z, 1⟩

/-- Exact addition. -/
def Frac.add (x y : Frac) : Frac := ⟨x.n * y.d + y.n * x.d, x.d * y.d⟩

/-- Exact subtraction. -/
def Frac.sub (x y : Frac) : Frac := ⟨x.n * y.d - y.n * x.d, x.d * y.d⟩

/-- Exact multiplication. -/
def Frac.mul (x y : Frac) : Frac := ⟨x.n * y.n, x.d * y.d⟩

/-- Exact division (callers divide only by a nonzero operand, as the C code
checks `right == 0` first). -/
def Frac.div (x y : Frac) : Frac :=
  if 0 ≤ y.n then ⟨x.n * y.d, x.d * y.n.toNat⟩
  else ⟨-(x.n * y.d), x.d * (-y.n).toNat⟩

/-- Negation. -/
def Frac.neg (x : Frac) : Frac := ⟨-x.n, x.d⟩

/-- The C `== 0` comparison against the exact value (`0 < d` throughout). -/
def Frac.isZero (x : Frac) : Bool := x.n = 0

/-- Truncation toward zero, as the C cast of a double to an unsigned integer
and the truncation inside `fmod` behave (`Int.tdiv` is T-division). -/
def Frac.trunc (x : Frac) : ℤ := Int.tdiv x.n x.d

/-- C `fmod(x, y)` for y ≠ 0: `x - trunc(x/y) * y`, exact. -/
def Frac.fmod (x y : Frac) : Frac :=
  x.sub (y.mul (Frac.ofInt (Frac.trunc (x.div y))))

/-- x^k for a natural k. -/
def Frac.npow (x : Frac) (k : ℕ) : Frac := ⟨x.n ^ k, x.d ^ k⟩

/-- Reciprocal (callers guard the zero case). -/
def Frac.inv (x : Frac) : Frac :=
  if 0 ≤ x.n then ⟨(x.d : ℤ), x.n.toNat⟩ else ⟨-(x.d : ℤ), (-x.n).toNat⟩

/-- C `pow(b, e)` at an integral exponent, exact (a negative exponent of 0
and a non-integral exponent are inf/NaN-valued reals in C, outside the exact
fragment; they are mapped to 0 and are not exercised by any theorem below —
the calculator's transliterated expressions contain only integer literals). -/
def Frac.powF (b e : Frac) : Frac :=
  if (e.d : ℤ) ∣ e.n then
    if 0 ≤ e.n then b.npow (Int.tdiv e.n e.d).toNat
    else if b.n = 0 then ⟨0, 1⟩
    else (b.npow (Int.tdiv (-e.n) e.d).toNat).inv
  else ⟨0, 1⟩

/-- '0'-'9' (the digits C `strtod` accepts). -/
def isDigit09 (c : Char) : Bool := '0' ≤ c ∧ c ≤ '9'

/-- The decimal fragment of C `strtod` as invoked at uqbasejump.h:382:
optional sign, integer digits, optional '.' and fraction digits, optional
exponent; fails (`none`, C `end == start`) when no mantissa digit is present.
Hexadecimal/inf/nan forms never occur in this program's inputs and are not
modelled; the value is exact where a double would round. -/
def strtodF (s : List Char) : Option (Frac × List Char) :=
  let sgn : ℤ × List Char :=
    match s with
    | '+' :: r => (1, r)
    | '-' :: r => (-1, r)
    | _ => (1, s)
  let s1 := sgn.2
  let ip := s1.takeWhile isDigit09
  let s2 := s1.dropWhile isDigit09
  let fps : List Char × List Char :=
    match s2 with
    | '.' :: r => (r.takeWhile isDigit09, r.dropWhile isDigit09)
    | _ => ([], s2)
  let fp := fps.1
  let s3 := fps.2
  if ip = [] ∧ fp = [] then none
  else
    let mant : Frac :=
      ⟨sgn.1 * (idealLoop 10 0 (ip ++ fp) : ℤ), 10 ^ fp.length⟩
    match s3 with
    | e :: r =>
      if e = 'e' ∨ e = 'E' then
        let esgn : Bool × List Char :=
          match r with
          | '+' :: r2 => (false, r2)
          | '-' :: r2 => (true, r2)
          | _ => (false, r)
        let eds := esgn.2.takeWhile isDigit09
        if eds = [] then some (mant, s3)
        else
          let k := idealLoop 10 0 eds
          some (if esgn.1 then ⟨mant.n, mant.d * 10 ^ k⟩
                else ⟨mant.n * (10 : ℤ) ^ k, mant.d⟩,
            esgn.2.dropWhile isDigit09)
      else some (mant, s3)
    | [] => some (mant, [])

/-- `parse_number` (uqbasejump.h:373): skip whitespace, fail on end of input,
then `strtod`. -/
def parse_number (s : List Char) : Option (Frac × List Char) :=
  let s1 := skip_whitespace s
  if s1 = [] then none else strtodF s1

mutual
/-- `parse_expression` (uqbasejump.h:490): a term followed by the
left-associative plus/minus loop.  The first argument is recursion-depth fuel
(strictly decreasing on every nested call; the entry point supplies more fuel
than any input can consume, since every four units of fuel consume at least
one input character). -/
def parse_expression : ℕ → List Char → Option (Frac × List Char)
  | 0, _ => none
  | n + 1, s =>
    (parse_term n s).bind fun vs => parse_expression_loop n vs.1 vs.2

/-- The `while (1)` plus/minus loop of `parse_expression`
(uqbasejump.h:496-515). -/
def parse_expression_loop : ℕ → Frac → List Char → Option (Frac × List Char)
  | 0, _, _ => none
  | n + 1, v, s =>
    match skip_whitespace s with
    | '+' :: r =>
        (parse_term n r).bind fun vs =>
          parse_expression_loop n (v.add vs.1) vs.2
    | '-' :: r =>
        (parse_term n r).bind fun vs =>
          parse_expression_loop n (v.sub vs.1) vs.2
    | s1 => some (v, s1)

/-- `parse_term` (uqbasejump.h:452): a factor followed by the
left-associative mul/div/mod loop. -/
def parse_term : ℕ → List Char → Option (Frac × List Char)
  | 0, _ => none
  | n + 1, s =>
    (parse_factor n s).bind fun vs => parse_term_loop n vs.1 vs.2

/-- The `while (1)` mul/div/mod loop of `parse_term` (uqbasejump.h:458-485):
division and modulo by a zero operand fail. -/
def parse_term_loop : ℕ → Frac → List Char → Option (Frac × List Char)
  | 0, _, _ => none
  | n + 1, v, s =>
    match skip_whitespace s with
    | '*' :: r =>
        (parse_factor n r).bind fun vs =>
          parse_term_loop n (v.mul vs.1) vs.2
    | '/' :: r =>
        (parse_factor n r).bind fun vs =>
          if vs.1.isZero then none else parse_term_loop n (v.div vs.1) vs.2
    | '%' :: r =>
        (parse_factor n r).bind fun vs =>
          if vs.1.isZero then none else parse_term_loop n (v.fmod vs.1) vs.2
    | s1 => some (v, s1)

/-- `parse_factor` (uqbasejump.h:428): optional unary sign then a power. -/
def parse_factor : ℕ → List Char → Option (Frac × List Char)
  | 0, _ => none
  | n + 1, s =>
    match skip_whitespace s with
    | '-' :: r => (parse_power n r).map fun vs => (vs.1.neg, vs.2)
    | '+' :: r => parse_power n r
    | s1 => parse_power n s1

/-- `parse_power` (uqbasejump.h:392): a parenthesised expression or a number,
then an optional right-associative caret. -/
def parse_power : ℕ → List Char → Option (Frac × List Char)
  | 0, _ => none
  | n + 1, s =>
    let base? : Option (Frac × List Char) :=
      match skip_whitespace s with
      | '(' :: r =>
          (parse_expression n r).bind fun vs =>
            match skip_whitespace vs.2 with
            | ')' :: s3 => some (vs.1, s3)
            | _ => none
      | s1 => parse_number s1
    base?.bind fun vs =>
      match skip_whitespace vs.2 with
      | '^' :: r => (parse_power n r).map fun es => (vs.1.powF es.1, es.2)
      | s5 => some (vs.1, s5)
end

/-- `evaluate_expression` (uqbasejump.h:520): parse, reject trailing input,
reject a negative result (`evalResult < 0`), reject a result ≥ 2^53, truncate
toward zero into an unsigned integer.  The comparisons are against the exact
value (n < 0 and 2^53·d ≤ n are the exact-value forms of `v < 0` and
`v ≥ 2^53` for 0 < d). -/
def evaluate_expression (s : List Char) : Option ℕ :=
  (parse_expression (4 * s.length + 8) s).bind fun vs =>
    if skip_whitespace vs.2 ≠ [] then none
    else if vs.1.n < 0 then none
    else if 9007199254740992 * (vs.1.d : ℤ) ≤ vs.1.n then none
    else some (Frac.trunc vs.1).toNat

/-- `digits_only` (uqbasejump.c:171): every character is a decimal digit. -/
def digits_only (s : List Char) : Bool := s.all isDigit09

/-- `strtol(s, NULL, 10)` on the digits-only strings this program feeds it:
the decimal value of the leading digit run (every caller has already checked
`digits_only`, and every base candidate large enough to overflow a C `long`
is rejected by `in_range` just as its exact value is here). -/
def strtolDec (s : List Char) : ℕ := idealLoop 10 0 (s.takeWhile isDigit09)

/-- `in_range` (uqbasejump.c:158): 2 ≤ base ≤ 36. -/
def in_range (b : ℕ) : Bool := 2 ≤ b ∧ b ≤ 36

/-- C `isalpha` in the default locale. -/
def isAlphaChar (c : Char) : Bool :=
  ('a' ≤ c ∧ c ≤ 'z') ∨ ('A' ≤ c ∧ c ≤ 'Z')

/-- C `toupper` on ASCII. -/
def toUpperC (c : Char) : Char :=
  if 'a' ≤ c ∧ c ≤ 'z' then Char.ofNat (c.toNat - 32) else c

/-- `is_in_base_range` (uqbasejump.c:649): a digit below the base, or a
letter whose uppercase digit value is below the base; the stored character
keeps its original case (the `toupper` store at c:672 is commented out). -/
def is_in_base_range (c : Char) (base : ℕ) : Bool :=
  if isDigit09 c then decide (c.toNat - 48 < base)
  else if isAlphaChar c then decide ((toUpperC c).toNat - 65 + 10 < base)
  else false

/-- Consecutive-comma scan of `output_bases_parse` (uqbasejump.c:493-499). -/
def hasConsecComma : List Char → Bool
  | [] => false
  | [_] => false
  | a :: b :: t => (a = ',' ∧ b = ',') || hasConsecComma (b :: t)

/-- The `strtok` loop of `output_bases_parse` (uqbasejump.c:508-527): each
comma-separated token must be digits-only, its value in range 2-36, unseen so
far (`seen[base]`, here membership in the accepted prefix), under the 36-slot
capacity; `none` models the `invalid_command_line_args()` exit. -/
def obpLoop : List (List Char) → List ℕ → Option (List ℕ)
  | [], acc => some acc
  | t :: ts, acc =>
    if ¬digits_only t then none
    else
      let b := strtolDec t
      if ¬(in_range b) ∨ b ∈ acc ∨ acc.length ≥ 36 then none
      else obpLoop ts (acc ++ [b])

/-- `output_bases_parse` (uqbasejump.c:483): reject empty input and leading /
trailing / consecutive commas, then validate each token; `none` means the C
code calls `invalid_command_line_args()`, which exits the process with
code 17. -/
def output_bases_parse (body : List Char) : Option (List ℕ) :=
  if body = [] ∨ body.getLast? = some ',' ∨ body.head? = some ',' then none
  else if hasConsecComma body then none
  else obpLoop (body.splitOn ',') []

/-- The session state owned by `stdrd_input_expr_evaluation`
(uqbasejump.c:935-999) together with the `Config` fields it mutates. -/
structure SessionState where
  inputBase : ℕ
  oBases : List ℕ
  inputBuffer : List Char
  exprBuffer : List Char
  commandBuffer : List Char
  command : Bool
  justDisplayedResult : Bool
  history : List (List Char × ℕ × ℕ)
deriving DecidableEq

/-- The outcome of one keystroke: continue with a new state (recording
whether a "Cannot evaluate" diagnostic went to stderr), or terminate the
whole process with an exit code. -/
inductive StepOut where
  | next (st : SessionState) (errReported : Bool)
  | exit (code : ℕ)
deriving DecidableEq

/-- The initial interactive state: `initialize_config` (uqbasejump.c:295)
plus the zeroed buffers and flags of `stdrd_input_expr_evaluation`. -/
def initialState : SessionState :=
  ⟨10, [2, 10, 16], [], [], [], false, false, []⟩

/-- `handle_character_input` (uqbasejump.c:1017): append a keystroke valid
for the input base when under the 64-character capacity; anything else is
discarded (display only). -/
def handle_character_input (st : SessionState) (ch : Char) : SessionState :=
  if is_in_base_range ch st.inputBase ∧ st.inputBuffer.length < 64 then
    { st with inputBuffer := st.inputBuffer ++ [ch] }
  else st

/-- `handle_operators` (uqbasejump.c:775): commit the raw token — a nonempty
token is round-tripped through base 10 (`convert_any_base_to_base_ten` then
`convert_expression` back to the input base) and appended to the expression
buffer (nothing is appended if either conversion returns NULL); an empty
token appends the literal '0'. -/
def handle_operators (st : SessionState) : SessionState :=
  if st.inputBuffer ≠ [] then
    match (convert_any_base_to_base_ten st.inputBuffer st.inputBase).bind
        (fun dec => convert_expression dec 10 st.inputBase) with
    | some t => { st with exprBuffer := st.exprBuffer ++ t }
    | none => st
  else { st with exprBuffer := st.exprBuffer ++ ['0'] }

/-- `handle_operator_input` (uqbasejump.c:1354): commit the token, clear the
raw buffer, append the operator character. -/
def handle_operator_input (st : SessionState) (ch : Char) : SessionState :=
  let st1 := handle_operators st
  { st1 with inputBuffer := [], exprBuffer := st1.exprBuffer ++ [ch] }

/-- `handle_special_keys` (uqbasejump.c:1273): Escape clears both buffers,
Backspace drops the last raw-token character. -/
def handle_special_keys (st : SessionState) (ch : Char) : SessionState :=
  if ch.toNat = 27 then { st with inputBuffer := [], exprBuffer := [] }
  else if ch.toNat = 127 then
    { st with inputBuffer := st.inputBuffer.dropLast }
  else st

/-- The evaluation a committed expression buffer undergoes
(uqbasejump.c:821-827): transliterate to base 10, then evaluate. -/
def evalCommitted (st : SessionState) : Option ℕ :=
  (convert_expression st.exprBuffer st.inputBase 10).bind evaluate_expression

/-- `evaluate_and_display_result` (uqbasejump.c:818): on success append a
history entry and clear the expression buffer; on failure print the
diagnostic (the `Bool`) and clear the expression buffer. -/
def evaluate_and_display_result (st : SessionState) : SessionState × Bool :=
  match convert_expression st.exprBuffer st.inputBase 10 with
  | none => ({ st with exprBuffer := [] }, true)
  | some dec =>
    match evaluate_expression dec with
    | none => ({ st with exprBuffer := [] }, true)
    | some result =>
      ({ st with
          history := st.history ++ [(st.exprBuffer, st.inputBase, result)]
          exprBuffer := [] }, false)

/-- The commit phases of `handle_enter_key` (uqbasejump.c:1220-1244): append
the normalized raw token (if any), fall back to the literal "0" when both
buffers were empty, clear the raw buffer, and set `justDisplayedResult` —
note the flag is set unconditionally, before evaluation is attempted. -/
def enterCommitted (st : SessionState) : SessionState :=
  let st1 :=
    if st.inputBuffer ≠ [] then
      match (convert_any_base_to_base_ten st.inputBuffer st.inputBase).bind
          (fun dec => convert_expression dec 10 st.inputBase) with
      | some t => { st with exprBuffer := st.exprBuffer ++ t }
      | none => st
    else st
  let st2 :=
    if st1.inputBuffer = [] ∧ st1.exprBuffer = [] then
      { st1 with exprBuffer := st1.exprBuffer ++ ['0'] }
    else st1
  { st2 with inputBuffer := [], justDisplayedResult := true }

/-- `handle_enter_key` (uqbasejump.c:1216): commit, then evaluate when the
expression buffer is nonempty (display only otherwise). -/
def handle_enter_key (st : SessionState) : SessionState × Bool :=
  let st3 := enterCommitted st
  if st3.exprBuffer ≠ [] then evaluate_and_display_result st3
  else (st3, false)

/-- `handle_input_base_command` (uqbasejump.c:1050): `:i` with a digits-only
body in range 2-36 sets the input base and clears both buffers; anything else
changes nothing. -/
def handle_input_base_command (st : SessionState) : SessionState :=
  if st.commandBuffer.length > 1 ∧ digits_only (st.commandBuffer.drop 1) then
    if in_range (strtolDec (st.commandBuffer.drop 1)) then
      { st with
          inputBase := strtolDec (st.commandBuffer.drop 1)
          inputBuffer := []
          exprBuffer := [] }
    else st
  else st

/-- `handle_output_base_command` (uqbasejump.c:1089): `:o` with a nonempty
body runs `output_bases_parse`, whose failure path calls
`invalid_command_line_args()` and exits the process with code 17; on success
the output bases are replaced and both buffers cleared. -/
def handle_output_base_command (st : SessionState) : StepOut :=
  if st.commandBuffer.length > 1 then
    match output_bases_parse (st.commandBuffer.drop 1) with
    | none => .exit 17
    | some l =>
        .next { st with oBases := l, inputBuffer := [], exprBuffer := [] }
          false
  else .next st false

/-- `handle_command_mode` (uqbasejump.c:1158): Enter dispatches on the first
buffered character (`i` / `o` / `h` with length exactly 1 — the history
listing touches no state) and always leaves command mode clearing the
command buffer; any other character is appended under the 127-character
bound. -/
def handle_command_mode (st : SessionState) (ch : Char) : StepOut :=
  if ch = '\n' then
    let dispatched : StepOut :=
      if st.commandBuffer ≠ [] then
        if st.commandBuffer.headD ' ' = 'i' then
          .next (handle_input_base_command st) false
        else if st.commandBuffer.headD ' ' = 'o' then
          handle_output_base_command st
        else .next st false
      else .next st false
    match dispatched with
    | .exit code => .exit code
    | .next st1 e => .next { st1 with command := false, commandBuffer := [] } e
  else
    if st.commandBuffer.length < 127 then
      .next { st with commandBuffer := st.commandBuffer ++ [ch] } false
    else .next st false

/-- `handle_colon_command` (uqbasejump.c:1380): enter command mode with an
empty command buffer. -/
def handle_colon_command (st : SessionState) : SessionState :=
  { st with command := true, commandBuffer := [] }

/-- `handle_just_displayed_result` (uqbasejump.c:1312): both branches clear
the flag (the invalid-character branch additionally re-renders, which touches
no state), so the `continue` guard at c:961-964 never fires and every
keystroke falls through to the normal dispatch. -/
def handle_just_displayed_result (st : SessionState) (ch : Char) :
    SessionState :=
  if st.justDisplayedResult then
    if ¬(ch = ':' ∨ ch.toNat = 27 ∨ ch.toNat = 127 ∨ ch = '\n' ∨ ch = '+' ∨
          ch = '-' ∨ ch = '*' ∨ ch = '/') ∧
        ¬(is_in_base_range ch st.inputBase = true) then
      { st with justDisplayedResult := false }
    else { st with justDisplayedResult := false }
  else st

/-- One keystroke of the interactive loop `stdrd_input_expr_evaluation`
(uqbasejump.c:945-999); EOF/EOT termination is the surrounding driver's
branch and is not a keystroke. -/
def step (st : SessionState) (ch : Char) : StepOut :=
  let st0 := if st.justDisplayedResult
             then handle_just_displayed_result st ch else st
  if st0.command then handle_command_mode st0 ch
  else if ch = ':' then .next (handle_colon_command st0) false
  else if ch.toNat = 27 ∨ ch.toNat = 127 then
    .next (handle_special_keys st0 ch) false
  else if ch = '\n' then
    let r := handle_enter_key st0
    .next r.1 r.2
  else if ch = '+' ∨ ch = '-' ∨ ch = '*' ∨ ch = '/' then
    .next (handle_operator_input st0 ch) false
  else .next (handle_character_input st0 ch) false

/-- Iterate `step` over a keystroke sequence, stopping at a process exit. -/
def runSteps (st : SessionState) : List Char → StepOut
  | [] => .next st false
  | c :: cs =>
    match step st c with
    | .next st1 _ => runSteps st1 cs
    | .exit code => .exit code

/-- C7's invariant: every raw-token character is accepted by
`is_in_base_range` for the current input base, and the buffer holds at most
64 characters. -/
def bufferInv (st : SessionState) : Prop :=
  st.inputBuffer.length ≤ 64 ∧
  ∀ c ∈ st.inputBuffer, is_in_base_range c st.inputBase = true

lemma char_to_digit_digit_to_char {d : ℕ} (h : d < 36) :
    char_to_digit (digit_to_char d) = d := by
  have : ∀ d : ℕ, d < 36 → char_to_digit (digit_to_char d) = d := by decide
  exact this d h

lemma validDigit_digit_to_char {d B : ℕ} (hd : d < B) (hB : B ≤ 36) :
    validDigit (digit_to_char d) B = true := by
  have hc := char_to_digit_digit_to_char (lt_of_lt_of_le hd hB)
  simp only [validDigit, hc, decide_eq_true_eq]
  exact ⟨Int.ofNat_nonneg d, by exact_mod_cast hd⟩

lemma idealLoop_affine (B : ℕ) (s : List Char) :
    ∀ a, idealLoop B a s = a * B ^ s.length + idealLoop B 0 s := by
  induction s with
  | nil => intro a; simp [idealLoop]
  | cons c cs ih =>
      intro a
      simp only [idealLoop, List.length_cons]
      rw [ih (a * B + (char_to_digit c).toNat),
          ih (0 * B + (char_to_digit c).toNat)]
      ring

lemma idealLoop_mod (B : ℕ) (s : List Char) (a : ℕ) :
    idealLoop B (a % U64MOD) s % U64MOD = idealLoop B a s % U64MOD := by
  rw [idealLoop_affine B s (a % U64MOD), idealLoop_affine B s a]
  exact Nat.ModEq.add_right _ (Nat.ModEq.mul_right _ (Nat.mod_modEq a U64MOD))

lemma parseLoop_valid (B : ℕ) (s : List Char)
    (h : ∀ c ∈ s, validDigit c B = true) :
    ∀ a, a < U64MOD → parseLoop B a s = some (idealLoop B a s % U64MOD) := by
  induction s with
  | nil =>
      intro a ha
      simp [parseLoop, idealLoop, Nat.mod_eq_of_lt ha]
  | cons c cs ih =>
      intro a ha
      have hc : validDigit c B = true := h c (List.mem_cons_self c cs)
      simp only [parseLoop, hc, if_pos]
      rw [ih (fun x hx => h x (List.mem_cons_of_mem c hx)) _
          (Nat.mod_lt _ (by norm_num [U64MOD]))]
      simp only [idealLoop]
      rw [idealLoop_mod]

lemma convertStrGo_valid (B : ℕ) (s : List Char)
    (h : ∀ c ∈ s, validDigit c B = true) :
    ∀ a, a < U64MOD → convertStrGo B a s = idealLoop B a s % U64MOD := by
  induction s with
  | nil =>
      intro a ha
      simp [convertStrGo, idealLoop, Nat.mod_eq_of_lt ha]
  | cons c cs ih =>
      intro a ha
      have hc : validDigit c B = true := h c (List.mem_cons_self c cs)
      simp only [convertStrGo, hc, if_pos]
      rw [ih (fun x hx => h x (List.mem_cons_of_mem c hx)) _
          (Nat.mod_lt _ (by norm_num [U64MOD]))]
      simp only [idealLoop]
      rw [idealLoop_mod]

lemma convertStrGo_invalid (B : ℕ) (s : List Char) {c : Char} (hc : c ∈ s)
    (hv : validDigit c B = false) : ∀ a, convertStrGo B a s = 0 := by
  induction s with
  | nil => cases hc
  | cons d ds ih =>
      intro a
      by_cases hd : validDigit d B = true
      · have hcd : c ∈ ds := by
          rcases List.mem_cons.mp hc with rfl | h
          · rw [hd] at hv; cases hv
          · exact h
        simp only [convertStrGo, hd, if_pos]
        exact ih hcd _
      · simp [convertStrGo, hd]

lemma idealLoop_append_single (B : ℕ) (s : List Char) (c : Char) :
    ∀ a, idealLoop B a (s ++ [c]) =
      idealLoop B a s * B + (char_to_digit c).toNat := by
  induction s with
  | nil => intro a; simp [idealLoop]
  | cons d ds ih => intro a; simp only [List.cons_append, idealLoop]; exact ih _

lemma formatCore_fuel_valid {B : ℕ} (hB2 : 2 ≤ B) (hB36 : B ≤ 36) :
    ∀ fuel v, v ≤ fuel → ∀ c ∈ formatCore B fuel v, validDigit c B = true := by
  intro fuel
  induction fuel with
  | zero => intro v hv c hc; cases hc
  | succ n ih =>
      intro v hv c hc
      rw [formatCore] at hc
      by_cases h0 : v = 0 ∨ B ≤ 1
      · rw [if_pos h0] at hc; cases hc
      · rw [if_neg h0] at hc
        push_neg at h0
        rcases List.mem_append.mp hc with h | h
        · refine ih (v / B) ?_ c h
          have := Nat.div_lt_self (Nat.pos_of_ne_zero h0.1)
            (show 1 < B by omega)
          omega
        · rcases List.mem_singleton.mp h with rfl
          exact validDigit_digit_to_char (Nat.mod_lt _ (by omega)) hB36

lemma formatCore_valid {B : ℕ} (hB2 : 2 ≤ B) (hB36 : B ≤ 36) (v : ℕ) :
    ∀ c ∈ formatCore B v v, validDigit c B = true :=
  formatCore_fuel_valid hB2 hB36 v v (le_refl v)

lemma idealLoop_formatCore_fuel {B : ℕ} (hB2 : 2 ≤ B) (hB36 : B ≤ 36) :
    ∀ fuel v, v ≤ fuel → idealLoop B 0 (formatCore B fuel v) = v := by
  intro fuel
  induction fuel with
  | zero =>
      intro v hv
      rw [Nat.le_zero.mp hv]
      rfl
  | succ n ih =>
      intro v hv
      rw [formatCore]
      by_cases h0 : v = 0 ∨ B ≤ 1
      · rcases h0 with h | h
        · simp [h, idealLoop]
        · omega
      · rw [if_neg h0]
        push_neg at h0
        have hlt := Nat.div_lt_self (Nat.pos_of_ne_zero h0.1)
          (show 1 < B by omega)
        rw [idealLoop_append_single, ih (v / B) (by omega),
            char_to_digit_digit_to_char (lt_of_lt_of_le (Nat.mod_lt _
              (by omega)) hB36)]
        exact Nat.div_add_mod' v B

lemma idealLoop_formatCore {B : ℕ} (hB2 : 2 ≤ B) (hB36 : B ≤ 36) (v : ℕ) :
    idealLoop B 0 (formatCore B v v) = v :=
  idealLoop_formatCore_fuel hB2 hB36 v v (le_refl v)

lemma validDigit_zero_char {B : ℕ} (hB : 2 ≤ B) : validDigit '0' B = true := by
  have h0 : char_to_digit '0' = 0 := by decide
  simp only [validDigit, h0, decide_eq_true_eq]
  exact ⟨le_refl 0, by exact_mod_cast Nat.lt_of_lt_of_le (by norm_num) hB⟩

lemma convert_str_zero {B : ℕ} (hB2 : 2 ≤ B) (hB36 : B ≤ 36) :
    convert_str_to_int_any_base ['0'] B = 0 := by
  have hv := validDigit_zero_char hB2
  have h0 : char_to_digit '0' = 0 := by decide
  simp [convert_str_to_int_any_base, hB2, hB36, convertStrGo, hv, h0]

lemma validDigit_of_opspace {c : Char}
    (h : is_operator c = true ∨ csIsSpace c = true) (B : ℕ) :
    validDigit c B = false := by
  have hc : char_to_digit c = -1 := by
    simp only [is_operator, csIsSpace, decide_eq_true_eq] at h
    rcases h with (rfl|rfl|rfl|rfl|rfl|rfl|rfl|rfl) | (rfl|rfl|rfl|rfl|rfl|rfl)
      <;> rfl
  simp [validDigit, hc]

lemma convert_int_to_str_isSome (v : ℕ) {B : ℕ} (hB2 : 2 ≤ B)
    (hB36 : B ≤ 36) : ∃ t, convert_int_to_str_any_base v B = some t := by
  rw [convert_int_to_str_any_base, if_neg (by push_neg; omega)]
  by_cases h : v = 0 <;> simp [h]

lemma decimal_roundtrip (v : ℕ) :
    ∃ d, convert_int_to_str_any_base v 10 = some d ∧ strtoullDec d = v := by
  by_cases h0 : v = 0
  · exact ⟨['0'], by simp [convert_int_to_str_any_base, h0], by
      rw [h0]; decide⟩
  · refine ⟨formatCore 10 v v, by simp [convert_int_to_str_any_base, h0], ?_⟩
    rw [strtoullDec, List.takeWhile_eq_self_iff.mpr
      (formatCore_valid (by norm_num) (by norm_num) v)]
    exact idealLoop_formatCore (by norm_num) (by norm_num) v

lemma convert_any_valid {B : ℕ} (s : List Char) (hB2 : 2 ≤ B) (hB36 : B ≤ 36)
    (h : ∀ c ∈ s, validDigit c B = true) :
    ∃ v d, parseLoop B 0 s = some v ∧
      convert_any_base_to_base_ten s B = some d ∧ strtoullDec d = v := by
  obtain ⟨d, hd, hrt⟩ := decimal_roundtrip (idealLoop B 0 s % U64MOD)
  refine ⟨idealLoop B 0 s % U64MOD, d,
    parseLoop_valid B s h 0 (by norm_num [U64MOD]), ?_, hrt⟩
  rw [convert_any_base_to_base_ten, if_neg (by push_neg; omega),
    parseLoop_valid B s h 0 (by norm_num [U64MOD])]
  simpa using hd

lemma run_decomp (p : Char → Bool) (run rest : List Char)
    (h1 : ∀ c ∈ run, p c = true) (h2 : ∀ d ∈ rest.head?, p d = false) :
    (run ++ rest).takeWhile p = run ∧ (run ++ rest).dropWhile p = rest := by
  induction run with
  | nil =>
      simp only [List.nil_append]
      cases rest with
      | nil => simp
      | cons d ds =>
          have hd : p d = false := h2 d rfl
          simp [List.takeWhile_cons, List.dropWhile_cons, hd]
  | cons r rs ih =>
      have hr : p r = true := h1 r (List.mem_cons_self r rs)
      have := ih (fun c hc => h1 c (List.mem_cons_of_mem r hc))
      simp [List.cons_append, List.takeWhile_cons, List.dropWhile_cons, hr,
        this.1, this.2]

lemma convertExprGo_none_iff {inB outB : ℕ} (hin2 : 2 ≤ inB)
    (hin36 : inB ≤ 36) (hout2 : 2 ≤ outB) (hout36 : outB ≤ 36) :
    ∀ n (s : List Char), s.length < n →
      (convertExprGo inB outB n s = none ↔
        ∃ c ∈ s, validDigit c inB = false ∧ is_operator c = false ∧
          csIsSpace c = false) := by
  intro n
  induction n with
  | zero =>
      intro s hs
      exact absurd hs (Nat.not_lt_zero _)
  | succ n ih =>
      intro s hs
      cases s with
      | nil => simp [convertExprGo]
      | cons c rest =>
          by_cases hc : validDigit c inB = true
          · -- digit branch: a maximal run is consumed
            have hrun : ∀ x ∈ (c :: rest).takeWhile
                (fun x => validDigit x inB), validDigit x inB = true :=
              fun x hx =>
                List.mem_takeWhile_imp (p := fun x => validDigit x inB) hx
            obtain ⟨v, d, hv, hparse, hrt⟩ :=
              convert_any_valid _ hin2 hin36 hrun
            obtain ⟨conv, hconv⟩ := convert_int_to_str_isSome
              (strtoullDec d) hout2 hout36
            have hlen : ((c :: rest).dropWhile
                (fun x => validDigit x inB)).length < n := by
              have h1 : ((c :: rest).dropWhile
                  (fun x => validDigit x inB)) = rest.dropWhile
                  (fun x => validDigit x inB) := by
                simp [List.dropWhile_cons, hc]
              rw [h1]
              have h2 := (List.dropWhile_sublist
                (fun x => validDigit x inB) (l := rest)).length_le
              simp only [List.length_cons] at hs
              omega
            rw [convertExprGo, if_pos hc]
            simp only [hparse, hconv]
            rw [Option.map_eq_none']
            rw [ih _ hlen]
            constructor
            · rintro ⟨x, hx, hxprop⟩
              exact ⟨x, (List.dropWhile_sublist _).mem hx, hxprop⟩
            · rintro ⟨x, hx, hxprop⟩
              refine ⟨x, ?_, hxprop⟩
              have hsplit := List.takeWhile_append_dropWhile
                (p := fun x => validDigit x inB) (l := c :: rest)
              rw [← hsplit] at hx
              rcases List.mem_append.mp hx with h | h
              · exact absurd (List.mem_takeWhile_imp h)
                  (by simp [hxprop.1])
              · exact h
          · have hcf : validDigit c inB = false := by
              cases h : validDigit c inB
              · rfl
              · exact absurd h hc
            by_cases hop : is_operator c = true ∨ csIsSpace c = true
            · have hob : (is_operator c || csIsSpace c) = true := by
                rcases hop with h | h <;> simp [h]
              rw [convertExprGo, if_neg hc, if_pos hob]
              rw [Option.map_eq_none']
              rw [ih rest (by simp only [List.length_cons] at hs; omega)]
              constructor
              · rintro ⟨x, hx, hxprop⟩
                exact ⟨x, List.mem_cons_of_mem c hx, hxprop⟩
              · rintro ⟨x, hx, hxprop⟩
                rcases List.mem_cons.mp hx with rfl | h
                · rcases hop with h | h
                  · rw [h] at hxprop; simp at hxprop
                  · rw [h] at hxprop; simp at hxprop
                · exact ⟨x, h, hxprop⟩
            · have hopf : is_operator c = false := by
                cases h : is_operator c
                · rfl
                · exact absurd (Or.inl h) hop
              have hspf : csIsSpace c = false := by
                cases h : csIsSpace c
                · rfl
                · exact absurd (Or.inr h) hop
              have hob : ¬((is_operator c || csIsSpace c) = true) := by
                simp [hopf, hspf]
              rw [convertExprGo, if_neg hc, if_neg hob]
              constructor
              · intro _
                exact ⟨c, List.mem_cons_self c rest, hcf, hopf, hspf⟩
              · intro _; rfl

lemma convertExprGo_fuel {inB outB : ℕ} :
    ∀ n m (s : List Char), s.length < n → s.length < m →
      convertExprGo inB outB n s = convertExprGo inB outB m s := by
  intro n
  induction n with
  | zero => intro m s hn; exact absurd hn (Nat.not_lt_zero _)
  | succ n ih =>
      intro m s hn hm
      cases m with
      | zero => exact absurd hm (Nat.not_lt_zero _)
      | succ m =>
          cases s with
          | nil => rfl
          | cons c rest =>
              simp only [List.length_cons] at hn hm
              rw [convertExprGo, convertExprGo]
              by_cases hc : validDigit c inB = true
              · rw [if_pos hc, if_pos hc]
                rcases h1 : convert_any_base_to_base_ten
                    ((c :: rest).takeWhile fun x => validDigit x inB) inB
                  with _ | decStr
                · simp only [h1]
                · simp only [h1]
                  rcases h2 : convert_int_to_str_any_base (strtoullDec decStr)
                      outB with _ | conv
                  · simp only [h2]
                  · simp only [h2]
                    have hd : ((c :: rest).dropWhile
                        (fun x => validDigit x inB)) = rest.dropWhile
                        (fun x => validDigit x inB) := by
                      simp [List.dropWhile_cons, hc]
                    have h3 := (List.dropWhile_sublist
                      (fun x => validDigit x inB) (l := rest)).length_le
                    rw [ih m _ (by rw [hd]; omega) (by rw [hd]; omega)]
              · rw [if_neg hc, if_neg hc]
                by_cases hop : (is_operator c || csIsSpace c) = true
                · rw [if_pos hop, if_pos hop,
                    ih m rest (by omega) (by omega)]
                · rw [if_neg hop, if_neg hop]

lemma convertExprGo_run {inB outB : ℕ} (hin2 : 2 ≤ inB) (hin36 : inB ≤ 36)
    (hout2 : 2 ≤ outB) (hout36 : outB ≤ 36) (run rest : List Char)
    (hne : run ≠ []) (hval : ∀ c ∈ run, validDigit c inB = true)
    (hrest : ∀ d ∈ rest.head?, validDigit d inB = false) :
    ∃ v conv, parseLoop inB 0 run = some v ∧
      convert_int_to_str_any_base v outB = some conv ∧
      convertExprGo inB outB ((run ++ rest).length + 1) (run ++ rest) =
        (convertExprGo inB outB (rest.length + 1) rest).map (conv ++ ·) := by
  obtain ⟨v, d, hv, hparse, hrt⟩ := convert_any_valid run hin2 hin36 hval
  obtain ⟨conv, hconv⟩ := convert_int_to_str_isSome (strtoullDec d)
    hout2 hout36
  obtain ⟨r, rs, rfl⟩ : ∃ r rs, run = r :: rs := by
    cases run with
    | nil => exact absurd rfl hne
    | cons r rs => exact ⟨r, rs, rfl⟩
  have hdecomp := run_decomp (fun x => validDigit x inB) (r :: rs) rest
    hval hrest
  refine ⟨v, conv, hv, hrt ▸ hconv, ?_⟩
  have hr : validDigit r inB = true := hval r (List.mem_cons_self r rs)
  rw [List.cons_append, convertExprGo]
  simp only [← List.cons_append, hdecomp.1, hdecomp.2, hr, if_pos, hparse,
    hconv]
  rw [convertExprGo_fuel ((r :: rs) ++ rest).length (rest.length + 1) rest
    (by simp [List.length_append]; omega) (Nat.lt_succ_self _)]

lemma Frac.add_dpos {x y : Frac} (hx : 0 < x.d) (hy : 0 < y.d) :
    0 < (x.add y).d := Nat.mul_pos hx hy

lemma Frac.sub_dpos {x y : Frac} (hx : 0 < x.d) (hy : 0 < y.d) :
    0 < (x.sub y).d := Nat.mul_pos hx hy

lemma Frac.mul_dpos {x y : Frac} (hx : 0 < x.d) (hy : 0 < y.d) :
    0 < (x.mul y).d := Nat.mul_pos hx hy

lemma Frac.div_dpos {x y : Frac} (hx : 0 < x.d) (hy : y.n ≠ 0) :
    0 < (x.div y).d := by
  rw [Frac.div]
  split <;> rename_i hs <;> refine Nat.mul_pos hx ?_ <;> omega

lemma Frac.fmod_dpos {x y : Frac} (hx : 0 < x.d) (hy : 0 < y.d) :
    0 < (x.fmod y).d :=
  Frac.sub_dpos hx (Frac.mul_dpos hy (by simp [Frac.ofInt]))

lemma Frac.powF_dpos {b : Frac} (e : Frac) (hb : 0 < b.d) :
    0 < (b.powF e).d := by
  rw [Frac.powF]
  split
  · split
    · exact pow_pos hb _
    · split
      · simp
      · rename_i hbn
        rw [Frac.inv]
        split <;> rename_i hs <;> simp only [Frac.npow] at hs ⊢ <;>
          [skip; skip] <;>
        · have : b.n ^ (Int.tdiv (-e.n) e.d).toNat ≠ 0 := pow_ne_zero _ hbn
          omega
  · simp

lemma strtodF_dpos {s r : List Char} {v : Frac}
    (h : strtodF s = some (v, r)) : 0 < v.d := by
  simp only [strtodF] at h
  split at h
  · cases h
  · split at h
    · split at h
      · split at h
        · obtain ⟨h1, h2⟩ := Prod.mk.injEq .. ▸ Option.some.injEq .. ▸ h
          rw [← h1]
          exact pow_pos (by norm_num) _
        · obtain ⟨h1, h2⟩ := Prod.mk.injEq .. ▸ Option.some.injEq .. ▸ h
          rw [← h1]
          split
          · exact Nat.mul_pos (pow_pos (by norm_num) _)
              (pow_pos (by norm_num) _)
          · exact pow_pos (by norm_num) _
      · obtain ⟨h1, h2⟩ := Prod.mk.injEq .. ▸ Option.some.injEq .. ▸ h
        rw [← h1]
        exact pow_pos (by norm_num) _
    · obtain ⟨h1, h2⟩ := Prod.mk.injEq .. ▸ Option.some.injEq .. ▸ h
      rw [← h1]
      exact pow_pos (by norm_num) _

lemma parse_number_dpos {s r : List Char} {v : Frac}
    (h : parse_number s = some (v, r)) : 0 < v.d := by
  rw [parse_number] at h
  split at h
  · cases h
  · exact strtodF_dpos h

lemma parsers_dpos : ∀ fuel : ℕ,
    (∀ s v r, parse_expression fuel s = some (v, r) → 0 < v.d) ∧
    (∀ x s v r, 0 < x.d → parse_expression_loop fuel x s = some (v, r) →
      0 < v.d) ∧
    (∀ s v r, parse_term fuel s = some (v, r) → 0 < v.d) ∧
    (∀ x s v r, 0 < x.d → parse_term_loop fuel x s = some (v, r) →
      0 < v.d) ∧
    (∀ s v r, parse_factor fuel s = some (v, r) → 0 < v.d) ∧
    (∀ s v r, parse_power fuel s = some (v, r) → 0 < v.d) := by
  intro fuel
  induction fuel with
  | zero =>
      refine ⟨?_, ?_, ?_, ?_, ?_, ?_⟩ <;> intros <;>
        simp_all [parse_expression, parse_expression_loop, parse_term,
          parse_term_loop, parse_factor, parse_power]
  | succ n ih =>
      obtain ⟨ihE, ihEL, ihT, ihTL, ihF, ihP⟩ := ih
      refine ⟨?_, ?_, ?_, ?_, ?_, ?_⟩
      · intro s v r h
        rw [parse_expression] at h
        rcases ht : parse_term n s with _ | vs
        · rw [ht] at h; cases h
        · rw [ht] at h
          exact ihEL vs.1 vs.2 v r (ihT s vs.1 vs.2 ht) h
      · intro x s v r hx h
        rw [parse_expression_loop] at h
        split at h
        · rcases ht : parse_term n _ with _ | vs
          · rw [ht] at h; cases h
          · rw [ht] at h
            exact ihEL _ vs.2 v r
              (Frac.add_dpos hx (ihT _ vs.1 vs.2 ht)) h
        · rcases ht : parse_term n _ with _ | vs
          · rw [ht] at h; cases h
          · rw [ht] at h
            exact ihEL _ vs.2 v r
              (Frac.sub_dpos hx (ihT _ vs.1 vs.2 ht)) h
        · obtain ⟨h1, h2⟩ := Prod.mk.injEq .. ▸ Option.some.injEq .. ▸ h
          rw [← h1]; exact hx
      · intro s v r h
        rw [parse_term] at h
        rcases hf : parse_factor n s with _ | vs
        · rw [hf] at h; cases h
        · rw [hf] at h
          exact ihTL vs.1 vs.2 v r (ihF s vs.1 vs.2 hf) h
      · intro x s v r hx h
        rw [parse_term_loop] at h
        split at h
        · rcases hf : parse_factor n _ with _ | vs
          · rw [hf] at h; cases h
          · rw [hf] at h
            exact ihTL _ vs.2 v r
              (Frac.mul_dpos hx (ihF _ vs.1 vs.2 hf)) h
        · rcases hf : parse_factor n _ with _ | vs
          · rw [hf] at h; cases h
          · rw [hf] at h
            simp only [Option.some_bind] at h
            split at h
            · cases h
            · rename_i hz
              have hn : vs.1.n ≠ 0 := by
                simpa [Frac.isZero] using hz
              exact ihTL _ vs.2 v r (Frac.div_dpos hx hn) h
        · rcases hf : parse_factor n _ with _ | vs
          · rw [hf] at h; cases h
          · rw [hf] at h
            simp only [Option.some_bind] at h
            split at h
            · cases h
            · exact ihTL _ vs.2 v r
                (Frac.fmod_dpos hx (ihF _ vs.1 vs.2 hf)) h
        · obtain ⟨h1, h2⟩ := Prod.mk.injEq .. ▸ Option.some.injEq .. ▸ h
          rw [← h1]; exact hx
      · intro s v r h
        rw [parse_factor] at h
        split at h
        · rcases hp : parse_power n _ with _ | vs
          · rw [hp] at h; cases h
          · rw [hp] at h
            obtain ⟨h1, h2⟩ := Prod.mk.injEq .. ▸ Option.some.injEq .. ▸ h
            rw [← h1]
            exact ihP _ vs.1 vs.2 hp
        · exact ihP _ v r h
        · exact ihP _ v r h
      · intro s v r h
        rw [parse_power] at h
        have hbase : ∀ w t, (match skip_whitespace s with
            | '(' :: r =>
                (parse_expression n r).bind fun vs =>
                  match skip_whitespace vs.2 with
                  | ')' :: s3 => some (vs.1, s3)
                  | _ => none
            | s1 => parse_number s1) = some (w, t) → 0 < w.d := by
          intro w t hw
          split at hw
          · rcases he : parse_expression n _ with _ | vs
            · rw [he] at hw; cases hw
            · rw [he] at hw
              simp only [Option.some_bind] at hw
              split at hw
              · obtain ⟨h1, h2⟩ :=
                  Prod.mk.injEq .. ▸ Option.some.injEq .. ▸ hw
                rw [← h1]
                exact ihE _ vs.1 vs.2 he
              · cases hw
          · exact parse_number_dpos hw
        rcases hb : (match skip_whitespace s with
            | '(' :: r =>
                (parse_expression n r).bind fun vs =>
                  match skip_whitespace vs.2 with
                  | ')' :: s3 => some (vs.1, s3)
                  | _ => none
            | s1 => parse_number s1) with _ | vs
        · rw [hb] at h; cases h
        · rw [hb] at h
          simp only [Option.some_bind] at h
          split at h
          · rcases hp : parse_power n _ with _ | es
            · rw [hp] at h; cases h
            · rw [hp] at h
              obtain ⟨h1, h2⟩ :=
                Prod.mk.injEq .. ▸ Option.some.injEq .. ▸ h
              rw [← h1]
              exact Frac.powF_dpos es.1 (hbase vs.1 vs.2 hb)
          · obtain ⟨h1, h2⟩ := Prod.mk.injEq .. ▸ Option.some.injEq .. ▸ h
            rw [← h1]
            exact hbase vs.1 vs.2 hb

lemma jdr_clear (st : SessionState) (ch : Char) :
    (if st.justDisplayedResult then handle_just_displayed_result st ch
     else st) = { st with justDisplayedResult := false } := by
  cases st with
  | mk ib ob inb exb cb cm jd hi =>
      cases jd
      · rfl
      · simp [handle_just_displayed_result]

lemma enterCommitted_inputBuffer (st : SessionState) :
    (enterCommitted st).inputBuffer = [] := rfl

lemma enterCommitted_jdr (st : SessionState) :
    (enterCommitted st).justDisplayedResult = true := rfl

lemma evaluate_and_display_fail (st : SessionState)
    (h : evalCommitted st = none) :
    evaluate_and_display_result st = ({ st with exprBuffer := [] }, true) := by
  rw [evalCommitted] at h
  rw [evaluate_and_display_result]
  rcases hc : convert_expression st.exprBuffer st.inputBase 10 with _ | dec
  · rfl
  · rw [hc] at h
    simp only [Option.some_bind] at h
    simp only [h]

lemma eadr_inputBuffer (st : SessionState) :
    (evaluate_and_display_result st).1.inputBuffer = st.inputBuffer := by
  rw [evaluate_and_display_result]
  split
  · rfl
  · split <;> rfl

lemma eadr_inputBase (st : SessionState) :
    (evaluate_and_display_result st).1.inputBase = st.inputBase := by
  rw [evaluate_and_display_result]
  split
  · rfl
  · split <;> rfl

lemma handle_enter_inputBuffer (st : SessionState) :
    (handle_enter_key st).1.inputBuffer = [] := by
  rw [handle_enter_key]
  split
  · rw [eadr_inputBuffer]
    exact enterCommitted_inputBuffer st
  · exact enterCommitted_inputBuffer st

lemma specials_not_in_base {ch : Char}
    (h : ch = '%' ∨ ch = '^' ∨ ch = '(' ∨ ch = ')') (B : ℕ) :
    is_in_base_range ch B = false := by
  rcases h with rfl | rfl | rfl | rfl <;>
    simp [is_in_base_range, isDigit09, isAlphaChar]

end UqBaseJump

namespace UqBaseJump

/-- C4: the evaluator's precedence, associativity and result range —
`2 + 3 * 4` is 14, `(2 + 3) * 4` is 20, `2 ^ 3 ^ 2` is 512 (exponentiation
right-associative), `5 / 0` fails (division by zero), `-1` fails (negative
result); and every successful evaluation returns the final parse value v with
0 ≤ v < 2^53, truncated toward zero (`Frac.trunc`) into the returned
unsigned integer. -/
theorem C4_evaluator_examples_and_range (s : List Char) (u : ℕ) :
    evaluate_expression "2 + 3 * 4".data = some 14 ∧
    evaluate_expression "(2 + 3) * 4".data = some 20 ∧
    evaluate_expression "2 ^ 3 ^ 2".data = some 512 ∧
    evaluate_expression "5 / 0".data = none ∧
    evaluate_expression "-1".data = none ∧
    (evaluate_expression s = some u →
      ∃ v rest, parse_expression (4 * s.length + 8) s = some (v, rest) ∧
        skip_whitespace rest = [] ∧ 0 ≤ v.toRat ∧ v.toRat < 2 ^ 53 ∧
        (u : ℤ) = Frac.trunc v) := by
  refine ⟨by decide, by decide, by decide, by decide, by decide, ?_⟩
  intro h
  rw [evaluate_expression] at h
  rcases hp : parse_expression (4 * s.length + 8) s with _ | ⟨v, rest⟩
  · rw [hp] at h; cases h
  · rw [hp] at h
    simp only [Option.some_bind] at h
    by_cases h1 : skip_whitespace rest ≠ []
    · rw [if_pos h1] at h; cases h
    · rw [if_neg h1] at h
      push_neg at h1
      by_cases h2 : v.n < 0
      · rw [if_pos h2] at h; cases h
      · rw [if_neg h2] at h
        by_cases h3 : 9007199254740992 * (v.d : ℤ) ≤ v.n
        · rw [if_pos h3] at h; cases h
        · rw [if_neg h3] at h
          push_neg at h2 h3
          have hd : 0 < v.d := (parsers_dpos (4 * s.length + 8)).1 s v rest hp
          have hdq : (0 : ℚ) < (v.d : ℚ) := by exact_mod_cast hd
          refine ⟨v, rest, rfl, h1, ?_, ?_, ?_⟩
          · exact div_nonneg (by exact_mod_cast h2) (le_of_lt hdq)
          · rw [Frac.toRat, div_lt_iff₀ hdq]
            calc ((v.n : ℚ)) < ((9007199254740992 * (v.d : ℤ) : ℤ) : ℚ) := by
                  exact_mod_cast h3
              _ = 2 ^ 53 * (v.d : ℚ) := by push_cast; norm_num
          · have hu : u = (Frac.trunc v).toNat := by
              injection h with h2
              exact h2.symm
            have htr : 0 ≤ Frac.trunc v :=
              Int.tdiv_nonneg h2 (Int.ofNat_nonneg _)
            rw [hu, Int.toNat_of_nonneg htr]

/-- Witness for C4's range implication at s = "7", u = 7. -/
theorem C4_evaluator_examples_and_range_witness :
    ∃ v rest,
      parse_expression (4 * ("7".data).length + 8) "7".data =
        some (v, rest) ∧
      skip_whitespace rest = [] ∧ 0 ≤ v.toRat ∧ v.toRat < 2 ^ 53 ∧
      ((7 : ℕ) : ℤ) = Frac.trunc v :=
  (C4_evaluator_examples_and_range "7".data 7).2.2.2.2.2 (by decide)

/-- C5: Round-trip of the Numeral Codec — for every base B in [2,36] and every
unsigned 64-bit value v, formatting v in base B succeeds and parsing the
resulting string back in base B (`convert_str_to_int_any_base`, the spec's
`parseMagnitude`) returns exactly v. -/
theorem C5_codec_roundtrip (B v : ℕ) (hB2 : 2 ≤ B) (hB36 : B ≤ 36)
    (hv : v < 2 ^ 64) :
    ∃ s, convert_int_to_str_any_base v B = some s ∧
      convert_str_to_int_any_base s B = v := by
  by_cases h0 : v = 0
  · refine ⟨['0'], ?_, ?_⟩
    · simp [convert_int_to_str_any_base, hB2, hB36, h0]
    · rw [convert_str_zero hB2 hB36, h0]
  · refine ⟨formatCore B v v, ?_, ?_⟩
    · simp [convert_int_to_str_any_base, hB2, hB36, h0]
    · rw [convert_str_to_int_any_base, if_neg (by push_neg; omega)]
      rw [convertStrGo_valid B _ (formatCore_valid hB2 hB36 v) 0
          (by norm_num [U64MOD])]
      rw [idealLoop_formatCore hB2 hB36 v]
      exact Nat.mod_eq_of_lt hv

/-- Witness for C5 at B = 16, v = 255 ("FF"). -/
theorem C5_codec_roundtrip_witness :
    (2 ≤ 16 ∧ 16 ≤ 36 ∧ 255 < 2 ^ 64) ∧
    ∃ s, convert_int_to_str_any_base 255 16 = some s ∧
      convert_str_to_int_any_base s 16 = 255 :=
  ⟨⟨by norm_num, by norm_num, by norm_num⟩,
   C5_codec_roundtrip 16 255 (by norm_num) (by norm_num) (by norm_num)⟩

/-- C3 counterexample: the claim says parsing the empty string reports an
error for every base, but `convert_any_base_to_base_ten` on the empty string
at base 10 succeeds (returning the decimal string "0"), and
`convert_str_to_int_any_base` returns the magnitude 0 — neither reports an
error: the code never checks that the text is non-empty. -/
theorem C3_empty_parse_counterexample :
    convert_any_base_to_base_ten [] 10 ≠ none ∧
    convert_any_base_to_base_ten [] 10 = some ['0'] ∧
    convert_str_to_int_any_base [] 10 = 0 := by
  refine ⟨?_, by decide, by decide⟩
  decide

/-- C3 amended: for every base B in [2,36], parsing the empty string does NOT
fail — `convert_any_base_to_base_ten` returns the string "0" and
`convert_str_to_int_any_base` returns 0 (the digit-validity check is vacuous
over no characters, and the accumulator starts at 0). -/
theorem C3_empty_parse_amended (B : ℕ) (hB2 : 2 ≤ B) (hB36 : B ≤ 36) :
    convert_any_base_to_base_ten [] B = some ['0'] ∧
    convert_str_to_int_any_base [] B = 0 := by
  constructor
  · simp [convert_any_base_to_base_ten, hB2, hB36, parseLoop,
      convert_int_to_str_any_base]
  · simp [convert_str_to_int_any_base, hB2, hB36, convertStrGo]

/-- Witness for C3 amended at B = 2. -/
theorem C3_empty_parse_amended_witness :
    (2 ≤ 2 ∧ 2 ≤ 36) ∧
    convert_any_base_to_base_ten [] 2 = some ['0'] ∧
    convert_str_to_int_any_base [] 2 = 0 :=
  ⟨⟨le_refl 2, by norm_num⟩,
   C3_empty_parse_amended 2 (le_refl 2) (by norm_num)⟩

/-- C8: for every string of digits all valid for base B in [2,36], the parse
accumulates `value = value*B + digit` modulo 2^64 (`idealLoop` is the
unbounded ideal value): the loop always succeeds with the wrapped value and
never reports an overflow error. -/
theorem C8_silent_wraparound (B : ℕ) (s : List Char) (hB2 : 2 ≤ B)
    (hB36 : B ≤ 36) (h : ∀ c ∈ s, validDigit c B = true) :
    parseLoop B 0 s = some (idealLoop B 0 s % 2 ^ 64) ∧
    convert_str_to_int_any_base s B = idealLoop B 0 s % 2 ^ 64 := by
  constructor
  · exact parseLoop_valid B s h 0 (by norm_num [U64MOD])
  · rw [convert_str_to_int_any_base, if_neg (by push_neg; omega)]
    exact convertStrGo_valid B s h 0 (by norm_num [U64MOD])

/-- Witness for C8 at base 16 on "1" followed by sixteen "0"s, a numeral whose
ideal magnitude is exactly 2^64: the parse returns the wrapped value 0 instead
of an error. -/
theorem C8_silent_wraparound_witness :
    (∀ c ∈ ('1' :: List.replicate 16 '0'), validDigit c 16 = true) ∧
    parseLoop 16 0 ('1' :: List.replicate 16 '0') =
      some (idealLoop 16 0 ('1' :: List.replicate 16 '0') % 2 ^ 64) ∧
    idealLoop 16 0 ('1' :: List.replicate 16 '0') = 2 ^ 64 ∧
    convert_str_to_int_any_base ('1' :: List.replicate 16 '0') 16 = 0 := by
  have h := C8_silent_wraparound 16 ('1' :: List.replicate 16 '0')
    (by norm_num) (by norm_num) (by decide)
  refine ⟨by decide, h.1, by decide, ?_⟩
  rw [h.2]
  decide

/-- C10: the live-display conversion conflates invalid input with zero — for
every base B in [2,36], `convert_str_to_int_any_base` returns 0 for the
numeral "0", returns 0 for every string containing a character that is not a
valid digit for B, and returns 0 for every out-of-range base. -/
theorem C10_invalid_conflated_with_zero (B : ℕ) (s : List Char)
    (hB2 : 2 ≤ B) (hB36 : B ≤ 36) :
    convert_str_to_int_any_base ['0'] B = 0 ∧
    (∀ c, c ∈ s → validDigit c B = false →
      convert_str_to_int_any_base s B = 0) ∧
    (∀ b, ¬(2 ≤ b ∧ b ≤ 36) → convert_str_to_int_any_base s b = 0) := by
  refine ⟨convert_str_zero hB2 hB36, ?_, ?_⟩
  · intro c hc hv
    rw [convert_str_to_int_any_base, if_neg (by push_neg; omega)]
    exact convertStrGo_invalid B s hc hv 0
  · intro b hb
    simp [convert_str_to_int_any_base, hb]

/-- C6: for every expression and bases in [2,36], `convert_expression`
(1) fails exactly when some character is neither a valid digit for the input
base nor one of the six operators / parentheses (`is_operator`) nor
whitespace; (2) replaces each maximal run of characters valid for the input
base by that run parsed in the input base (`parseLoop`, the spec's
`parseMagnitude`) and re-formatted in the output base
(`convert_int_to_str_any_base`, the spec's `formatMagnitude`); (3) copies
every operator, parenthesis, or whitespace character verbatim. -/
theorem C6_transliterate_structure (inB outB : ℕ) (s run rest : List Char)
    (c : Char) (hin2 : 2 ≤ inB) (hin36 : inB ≤ 36) (hout2 : 2 ≤ outB)
    (hout36 : outB ≤ 36) :
    (convert_expression s inB outB = none ↔
      ∃ x ∈ s, validDigit x inB = false ∧ is_operator x = false ∧
        csIsSpace x = false) ∧
    (run ≠ [] → (∀ x ∈ run, validDigit x inB = true) →
      (∀ d ∈ rest.head?, validDigit d inB = false) →
      ∃ v conv, parseLoop inB 0 run = some v ∧
        convert_int_to_str_any_base v outB = some conv ∧
        convert_expression (run ++ rest) inB outB =
          (convert_expression rest inB outB).map (conv ++ ·)) ∧
    ((is_operator c = true ∨ csIsSpace c = true) →
      convert_expression (c :: rest) inB outB =
        (convert_expression rest inB outB).map (c :: ·)) := by
  have hguard : ¬¬(2 ≤ inB ∧ inB ≤ 36 ∧ 2 ≤ outB ∧ outB ≤ 36) := by
    push_neg; exact ⟨hin2, hin36, hout2, hout36⟩
  refine ⟨?_, ?_, ?_⟩
  · rw [convert_expression, if_neg hguard]
    exact convertExprGo_none_iff hin2 hin36 hout2 hout36 (s.length + 1) s
      (Nat.lt_succ_self _)
  · intro hne hval hrest
    obtain ⟨v, conv, h1, h2, h3⟩ := convertExprGo_run hin2 hin36 hout2 hout36
      run rest hne hval hrest
    refine ⟨v, conv, h1, h2, ?_⟩
    rw [convert_expression, if_neg hguard, convert_expression, if_neg hguard]
    exact h3
  · intro hop
    rw [convert_expression, if_neg hguard, convert_expression, if_neg hguard]
    have hcf : validDigit c inB = false := validDigit_of_opspace hop inB
    have hc : ¬(validDigit c inB = true) := by simp [hcf]
    have hob : (is_operator c || csIsSpace c) = true := by
      rcases hop with h | h <;> simp [h]
    rw [convertExprGo, if_neg hc, if_pos hob]
    rfl

/-- Witness for C6 at inB = 16, outB = 10: "@" fails (its only character is
in none of the allowed classes); the run "FF" before "+" is rewritten as 255;
the operator '+' is copied verbatim. -/
theorem C6_transliterate_structure_witness :
    (convert_expression ['@'] 16 10 = none ↔
      ∃ x ∈ ['@'], validDigit x 16 = false ∧ is_operator x = false ∧
        csIsSpace x = false) ∧
    (∃ v conv, parseLoop 16 0 ['F', 'F'] = some v ∧
      convert_int_to_str_any_base v 10 = some conv ∧
      convert_expression (['F', 'F'] ++ ['+']) 16 10 =
        (convert_expression ['+'] 16 10).map (conv ++ ·)) ∧
    convert_expression ['+'] 16 10 =
      (convert_expression [] 16 10).map ('+' :: ·) := by
  have h := C6_transliterate_structure 16 10 ['@'] ['F', 'F'] ['+'] '+'
    (by norm_num) (by norm_num) (by norm_num) (by norm_num)
  refine ⟨h.1, h.2.1 (by simp) (by decide) (by decide), ?_⟩
  have h2 := C6_transliterate_structure 16 10 ['@'] ['F', 'F'] [] '+'
    (by norm_num) (by norm_num) (by norm_num) (by norm_num)
  exact h2.2.2 (Or.inl (by decide))

/-- Witness for C10 at B = 16, s = "G1" ('G' has digit value 16, invalid for
base 16): the malformed numeral yields 0, indistinguishable from "0". -/
theorem C10_invalid_conflated_with_zero_witness :
    convert_str_to_int_any_base ['0'] 16 = 0 ∧
    convert_str_to_int_any_base ['G', '1'] 16 = 0 ∧
    convert_str_to_int_any_base ['G', '1'] 1 = 0 := by
  have h := C10_invalid_conflated_with_zero 16 ['G', '1'] (by norm_num)
    (by norm_num)
  exact ⟨h.1, h.2.1 'G' (by decide) (by decide), h.2.2 1 (by norm_num)⟩

/-- C1 counterexample: from the initial session state the command `:o2,2`
(duplicate base) does NOT leave the session running — `output_bases_parse`
calls `invalid_command_line_args()`, which terminates the whole process with
exit code 17, contradicting "the session continues in Normal state (the
command is absorbed without terminating the program)". -/
theorem C1_duplicate_obase_counterexample :
    runSteps initialState [':', 'o', '2', ',', '2', '\n'] =
      StepOut.exit 17 := by decide

/-- C1 amended: dispatching `o` with a non-empty body that fails list
validation terminates the process with exit code 17 (`outputBases` is never
replaced before the exit — the parse works on a scratch copy); a body that
passes validation replaces `outputBases` and clears both buffers, and the
session continues in Normal state. -/
theorem C1_output_command_amended (st : SessionState) (body : List Char)
    (hcmd : st.command = true) (hbuf : st.commandBuffer = 'o' :: body)
    (hne : body ≠ []) :
    (output_bases_parse body = none → step st '\n' = StepOut.exit 17) ∧
    (∀ l, output_bases_parse body = some l →
      step st '\n' = StepOut.next { st with
        oBases := l
        inputBuffer := []
        exprBuffer := []
        commandBuffer := []
        command := false
        justDisplayedResult := false } false) := by
  have hlen : ('o' :: body).length > 1 := by
    simp [List.length_pos.mpr hne]
  have hstep : step st '\n' = handle_command_mode
      { st with justDisplayedResult := false } '\n' := by
    rw [step]
    simp only [jdr_clear]
    rw [if_pos hcmd]
  have hl : body.length + 1 > 1 := by
    have := List.length_pos.mpr hne
    omega
  constructor
  · intro hp
    rw [hstep, handle_command_mode, if_pos rfl]
    simp only [hbuf, List.headD_cons]
    rw [if_pos (List.cons_ne_nil 'o' body),
      if_neg (show ¬('o' = 'i') by decide), if_pos True.intro,
      handle_output_base_command]
    simp only [List.length_cons, List.drop_one, List.tail_cons]
    rw [if_pos hl, hp]
  · intro l hp
    rw [hstep, handle_command_mode, if_pos rfl]
    simp only [hbuf, List.headD_cons]
    rw [if_pos (List.cons_ne_nil 'o' body),
      if_neg (show ¬('o' = 'i') by decide), if_pos True.intro,
      handle_output_base_command]
    simp only [List.length_cons, List.drop_one, List.tail_cons]
    rw [if_pos hl, hp]

/-- Witness for C1 amended: the failing branch at the state reached after
`:o2,2` has been typed (command mode, buffer "o2,2"). -/
theorem C1_output_command_amended_witness :
    step ⟨10, [2, 10, 16], [], [], ['o', '2', ',', '2'], true, false, []⟩
      '\n' = StepOut.exit 17 :=
  (C1_output_command_amended
    ⟨10, [2, 10, 16], [], [], ['o', '2', ',', '2'], true, false, []⟩
    ['2', ',', '2'] rfl rfl (by decide)).1 (by decide)

/-- The concrete Normal-mode state for C2: empty raw token, committed
expression "1/0" whose evaluation fails with division by zero. -/
def c2State : SessionState :=
  ⟨10, [2, 10, 16], [], ['1', '/', '0'], [], false, false, []⟩

/-- C2 counterexample: Enter on the committed expression "1/0" (evaluation
fails) reports the error and clears both buffers, but leaves
`justDisplayedResult` SET — `handle_enter_key` sets the flag unconditionally
before evaluating and the failure path never clears it, contradicting "the
PostResult flag is left unset". -/
theorem C2_postresult_counterexample :
    evalCommitted c2State = none ∧
    step c2State '\n' =
      StepOut.next { c2State with
        exprBuffer := []
        justDisplayedResult := true } true ∧
    ({ c2State with
        exprBuffer := []
        justDisplayedResult := true }).justDisplayedResult = true :=
  ⟨by decide, by decide, rfl⟩

/-- C2 amended: for every Normal-mode state whose committed expression fails
to evaluate after Enter, the error is reported (the diagnostic flag of the
step is true), both buffers are cleared, and `justDisplayedResult` is left
SET (not unset as the spec claims). -/
theorem C2_enter_failure_amended (st stc : SessionState)
    (hcmd : st.command = false)
    (hc : stc = enterCommitted { st with justDisplayedResult := false })
    (hne : stc.exprBuffer ≠ []) (hfail : evalCommitted stc = none) :
    step st '\n' = StepOut.next { stc with exprBuffer := [] } true ∧
    ({ stc with exprBuffer := [] }).inputBuffer = [] ∧
    ({ stc with exprBuffer := [] }).exprBuffer = [] ∧
    ({ stc with exprBuffer := [] }).justDisplayedResult = true := by
  have hstep : step st '\n' = StepOut.next (handle_enter_key
      { st with justDisplayedResult := false }).1 (handle_enter_key
      { st with justDisplayedResult := false }).2 := by
    rw [step]
    simp only [jdr_clear]
    rw [if_neg (by simp [hcmd])]
    norm_num
    rw [if_neg (show ¬('\n' = ':') by decide),
      if_neg (show ¬('\n'.toNat = 27 ∨ '\n'.toNat = 127) by decide)]
  rw [hstep, handle_enter_key]
  simp only [← hc]
  rw [if_pos hne, evaluate_and_display_fail stc hfail]
  refine ⟨by first | trivial | simp, ?_, by first | trivial | rfl, ?_⟩
  · show stc.inputBuffer = []
    rw [hc]
    exact enterCommitted_inputBuffer _
  · show stc.justDisplayedResult = true
    rw [hc]
    exact enterCommitted_jdr _

/-- Witness for C2 amended at `c2State` (committed expression "1/0"). -/
theorem C2_enter_failure_amended_witness :
    step c2State '\n' = StepOut.next
      { enterCommitted { c2State with justDisplayedResult := false } with
        exprBuffer := [] } true :=
  (C2_enter_failure_amended c2State
    (enterCommitted { c2State with justDisplayedResult := false })
    rfl rfl (by decide) (by decide)).1

/-- C9: in every Normal-mode state, the keystrokes '%', '^', '(' and ')' are
not dispatched as operators — they fall through to `handle_character_input`,
fail `is_in_base_range` for every base, and are discarded: the raw token
buffer, expression buffer, history and configuration are all unchanged (only
the one-keystroke `justDisplayedResult` overlay is cleared), so these
evaluator features are reachable only through file mode. -/
theorem C9_specials_discarded (st : SessionState) (ch : Char)
    (hcmd : st.command = false)
    (hch : ch = '%' ∨ ch = '^' ∨ ch = '(' ∨ ch = ')') :
    step st ch = StepOut.next { st with justDisplayedResult := false }
      false ∧
    ({ st with justDisplayedResult := false }).inputBuffer =
      st.inputBuffer ∧
    ({ st with justDisplayedResult := false }).exprBuffer = st.exprBuffer ∧
    ({ st with justDisplayedResult := false }).history = st.history ∧
    ({ st with justDisplayedResult := false }).inputBase = st.inputBase ∧
    ({ st with justDisplayedResult := false }).oBases = st.oBases := by
  refine ⟨?_, rfl, rfl, rfl, rfl, rfl⟩
  have hnb := specials_not_in_base hch st.inputBase
  rw [step]
  simp only [jdr_clear]
  rw [if_neg (by simp [hcmd])]
  rw [if_neg (by rcases hch with rfl | rfl | rfl | rfl <;> decide)]
  rw [if_neg (by rcases hch with rfl | rfl | rfl | rfl <;> decide)]
  rw [if_neg (by rcases hch with rfl | rfl | rfl | rfl <;> decide)]
  rw [if_neg (by rcases hch with rfl | rfl | rfl | rfl <;> decide)]
  rw [handle_character_input]
  rw [if_neg (by simp [hnb])]

/-- Witness for C9 at a state with a pending token and expression, ch = '%'. -/
theorem C9_specials_discarded_witness :
    step ⟨10, [2, 10, 16], ['1'], ['2', '+'], [], false, false, []⟩ '%' =
      StepOut.next { (⟨10, [2, 10, 16], ['1'], ['2', '+'], [], false, false,
        []⟩ : SessionState) with justDisplayedResult := false } false :=
  (C9_specials_discarded
    ⟨10, [2, 10, 16], ['1'], ['2', '+'], [], false, false, []⟩ '%' rfl
    (Or.inl rfl)).1

lemma bufferInv_of_nil {st : SessionState} (h : st.inputBuffer = []) :
    bufferInv st := by
  rw [bufferInv, h]
  exact ⟨by simp, by simp⟩

lemma handle_input_base_inv {st : SessionState} (h : bufferInv st) :
    bufferInv (handle_input_base_command st) := by
  rw [handle_input_base_command]
  split
  · split
    · exact bufferInv_of_nil rfl
    · exact h
  · exact h

lemma step_bufferInv {st st' : SessionState} {ch : Char} {e : Bool}
    (hinv : bufferInv st) (h : step st ch = StepOut.next st' e) :
    bufferInv st' := by
  have hinv0 : bufferInv { st with justDisplayedResult := false } := hinv
  rw [step] at h
  simp only [jdr_clear] at h
  by_cases hcm :
      ({ st with justDisplayedResult := false } : SessionState).command
  · rw [if_pos hcm, handle_command_mode] at h
    by_cases hnl : ch = '\n'
    · rw [if_pos hnl] at h
      by_cases hcb :
          ({ st with justDisplayedResult := false } :
            SessionState).commandBuffer ≠ []
      · rw [if_pos hcb] at h
        by_cases hi : ({ st with justDisplayedResult := false } :
            SessionState).commandBuffer.headD ' ' = 'i'
        · rw [if_pos hi] at h
          simp only [StepOut.next.injEq] at h
          obtain ⟨h1, h2⟩ := h
          rw [← h1]
          exact handle_input_base_inv hinv0
        · rw [if_neg hi] at h
          by_cases ho : ({ st with justDisplayedResult := false } :
              SessionState).commandBuffer.headD ' ' = 'o'
          · rw [if_pos ho, handle_output_base_command] at h
            split at h
            · rcases hp : output_bases_parse
                  (({ st with justDisplayedResult := false } :
                    SessionState).commandBuffer.drop 1) with _ | l
              · rw [hp] at h
                simp at h
              · rw [hp] at h
                simp only [StepOut.next.injEq] at h
                obtain ⟨h1, h2⟩ := h
                rw [← h1]
                exact bufferInv_of_nil rfl
            · simp only [StepOut.next.injEq] at h
              obtain ⟨h1, h2⟩ := h
              rw [← h1]
              exact hinv0
          · rw [if_neg ho] at h
            simp only [StepOut.next.injEq] at h
            obtain ⟨h1, h2⟩ := h
            rw [← h1]
            exact hinv0
      · rw [if_neg hcb] at h
        simp only [StepOut.next.injEq] at h
        obtain ⟨h1, h2⟩ := h
        rw [← h1]
        exact hinv0
    · rw [if_neg hnl] at h
      split at h
      · simp only [StepOut.next.injEq] at h
        obtain ⟨h1, h2⟩ := h
        rw [← h1]
        exact hinv0
      · simp only [StepOut.next.injEq] at h
        obtain ⟨h1, h2⟩ := h
        rw [← h1]
        exact hinv0
  · rw [if_neg hcm] at h
    by_cases hcol : ch = ':'
    · rw [if_pos hcol] at h
      simp only [StepOut.next.injEq] at h
      obtain ⟨h1, h2⟩ := h
      rw [← h1]
      exact hinv0
    · rw [if_neg hcol] at h
      by_cases hsp : ch.toNat = 27 ∨ ch.toNat = 127
      · rw [if_pos hsp, handle_special_keys] at h
        split at h
        · simp only [StepOut.next.injEq] at h
          obtain ⟨h1, h2⟩ := h
          rw [← h1]
          exact bufferInv_of_nil rfl
        · split at h
          · simp only [StepOut.next.injEq] at h
            obtain ⟨h1, h2⟩ := h
            rw [← h1]
            obtain ⟨hlen, hmem⟩ := hinv0
            exact ⟨le_trans (List.dropLast_sublist _).length_le hlen,
              fun c hc => hmem c ((List.dropLast_sublist _).mem hc)⟩
          · simp only [StepOut.next.injEq] at h
            obtain ⟨h1, h2⟩ := h
            rw [← h1]
            exact hinv0
      · rw [if_neg hsp] at h
        by_cases hen : ch = '\n'
        · rw [if_pos hen] at h
          simp only [StepOut.next.injEq] at h
          obtain ⟨h1, h2⟩ := h
          rw [← h1]
          exact bufferInv_of_nil (handle_enter_inputBuffer _)
        · rw [if_neg hen] at h
          by_cases hop : ch = '+' ∨ ch = '-' ∨ ch = '*' ∨ ch = '/'
          · rw [if_pos hop] at h
            simp only [StepOut.next.injEq] at h
            obtain ⟨h1, h2⟩ := h
            rw [← h1]
            exact bufferInv_of_nil rfl
          · rw [if_neg hop, handle_character_input] at h
            split at h
            · rename_i hacc
              simp only [StepOut.next.injEq] at h
              obtain ⟨h1, h2⟩ := h
              rw [← h1]
              obtain ⟨hlen, hmem⟩ := hinv0
              refine ⟨?_, ?_⟩
              · simp only [List.length_append, List.length_singleton]
                exact hacc.2
              · intro c hc
                rcases List.mem_append.mp hc with hx | hx
                · exact hmem c hx
                · rcases List.mem_singleton.mp hx with rfl
                  exact hacc.1
            · simp only [StepOut.next.injEq] at h
              obtain ⟨h1, h2⟩ := h
              rw [← h1]
              exact hinv0

lemma runSteps_bufferInv : ∀ (ks : List Char) (st st' : SessionState)
    (e : Bool), bufferInv st → runSteps st ks = StepOut.next st' e →
    bufferInv st' := by
  intro ks
  induction ks with
  | nil =>
      intro st st' e hinv h
      rw [runSteps] at h
      simp only [StepOut.next.injEq] at h
      obtain ⟨h1, h2⟩ := h
      rw [← h1]
      exact hinv
  | cons c cs ih =>
      intro st st' e hinv h
      rw [runSteps] at h
      rcases hs : step st c with ⟨st1, e1⟩ | ⟨code⟩
      · rw [hs] at h
        exact ih st1 st' e (step_bufferInv hinv hs) h
      · rw [hs] at h
        cases h

/-- C7: in every reachable session state the Raw Token Buffer invariant
holds — each stored character is accepted by `is_in_base_range` for the
current input base (a digit or letter valid, case-insensitively, for that
base) and the buffer length never exceeds 64.  The invariant is preserved
by every single keystroke (digits, operators, Enter, Escape, Backspace, ':'
and both command dispatches) and hence by every keystroke sequence. -/
theorem C7_raw_token_invariant (st st1 st2 : SessionState) (ch : Char)
    (e1 e2 : Bool) (ks : List Char) (h : bufferInv st) :
    (step st ch = StepOut.next st1 e1 → bufferInv st1) ∧
    (runSteps st ks = StepOut.next st2 e2 → bufferInv st2) :=
  ⟨fun hs => step_bufferInv h hs,
   fun hs => runSteps_bufferInv ks st st2 e2 h hs⟩

/-- Witness for C7: from the initial state, typing "12" then switching the
input base with ":i2" keeps the invariant (the buffers are cleared on the
base change). -/
theorem C7_raw_token_invariant_witness :
    bufferInv initialState ∧
    runSteps initialState ['1', '2', ':', 'i', '2', '\n'] =
      StepOut.next ⟨2, [2, 10, 16], [], [], [], false, false, []⟩ false ∧
    bufferInv (⟨2, [2, 10, 16], [], [], [], false, false, []⟩ :
      SessionState) := by
  refine ⟨⟨by simp [initialState], by simp [initialState]⟩, by decide, ?_⟩
  exact (C7_raw_token_invariant initialState
    ⟨2, [2, 10, 16], [], [], [], false, false, []⟩
    ⟨2, [2, 10, 16], [], [], [], false, false, []⟩ 'x' false false
    ['1', '2', ':', 'i', '2', '\n']
    ⟨by simp [initialState], by simp [initialState]⟩).2 (by decide)

end UqBaseJump
